import Mathlib

/-!
Verification of the conversation-state and tool-call orchestration core of the
joinly meeting-bot client.  The definitions below are a shallow embedding of
the TypeScript source: `validateMessages`, the orphan-removing filter inside
`makeOpenAIRequest` (here `repairMessages`), `truncateMessages`, the
tool-call cycle of `processNewSegments` (here `runCycle`), the catastrophic
reset handler, the transcript cursor of `processNewSegments` (time-based) and
of the `client.ts` polling loop (count-based), and the debounce policy.
-/

namespace Joinly

/-- One tool call attached to an assistant message
(OpenAI `tool_calls` entry: `id`, `function.name`, `function.arguments`). -/
structure ToolCall where
  id : String
  name : String
  arguments : String
deriving DecidableEq, Repr

/-- One entry of the conversation log `this.messages`.  An assistant message
stores its `tool_calls` as a list; the JS value `undefined` (no tool calls)
is modelled as the empty list, which behaves identically in every scan the
source performs (`find` over an empty array never matches, and
`tool_calls.length > 0` is false). -/
inductive Msg where
  | system (content : String)
  | user (content : String)
  | assistant (content : String) (toolCalls : List ToolCall)
  | tool (toolCallId : String) (content : String)
deriving DecidableEq, Repr

/-- The backward scan of `validateMessages`: `rev` is the list of messages
strictly before the tool message, nearest first.  An assistant message whose
`tool_calls` contain a call with the sought id succeeds; a user message stops
the scan; every other message is skipped. -/
def findToolCall (tcid : String) : List Msg → Bool
  | [] => false
  | Msg.assistant _ calls :: rest =>
      calls.any (fun c => c.id == tcid) || findToolCall tcid rest
  | Msg.user _ :: _ => false
  | _ :: rest => findToolCall tcid rest

/-- The per-message check shared by `validateMessages` and the orphan filter
in `makeOpenAIRequest`: a `role: "tool"` message passes iff the backward scan
finds its `tool_call_id`; every other message passes. -/
def toolOk (rev : List Msg) : Msg → Bool
  | Msg.tool tcid _ => findToolCall tcid rev
  | _ => true

/-- Loop body of `validateMessages`: `rev` is the already-scanned reversed
prefix, `rest` the remaining messages. -/
def validateFrom (rev : List Msg) : List Msg → Bool
  | [] => true
  | m :: rest => toolOk rev m && validateFrom (m :: rev) rest

/-- The source's `MeetingAgent.validateMessages`: false iff some `role: "tool"` message has
no matching `tool_calls` entry in an assistant message between it and the most
recent user message (exclusive) or the start of the log. -/
def validateMessages (msgs : List Msg) : Bool :=
  validateFrom [] msgs

/-- Spec-side formulation of the backward window of §3: the `tool_calls`
lists of the assistant turns between a position (scanning backward, `rev` is
nearest-first) and the most recent `UserTurn` (exclusive) or the start of the
log. -/
def windowAssistants : List Msg → List (List ToolCall)
  | [] => []
  | Msg.assistant _ calls :: rest => calls :: windowAssistants rest
  | Msg.user _ :: _ => []
  | _ :: rest => windowAssistants rest

/-- Number of assistant turns in the backward window containing a tool call
with the given id (the spec's "exactly one `AssistantTurn` containing a
`ToolRequest` with `id = r`" counts these). -/
def windowMatches (tcid : String) (rev : List Msg) : Nat :=
  (windowAssistants rev).countP (fun calls => calls.any (fun c => c.id == tcid))

/-- Spec-side orphan predicate, following the claim's words: a
`ToolResultTurn` is orphaned unless its backward window contains exactly one
matching assistant turn. -/
def specOrphanFrom (rev : List Msg) : List Msg → Bool
  | [] => false
  | m :: rest =>
      (match m with
       | Msg.tool tcid _ => !(windowMatches tcid rev == 1)
       | _ => false) || specOrphanFrom (m :: rev) rest

/-- The claim's "the log contains an orphaned `ToolResultTurn`" with the
exactly-one reading of §3. -/
def specHasOrphan (msgs : List Msg) : Bool :=
  specOrphanFrom [] msgs

@[simp] lemma findToolCall_nil (tcid : String) : findToolCall tcid [] = false := rfl

@[simp] lemma findToolCall_system (tcid c : String) (rest : List Msg) :
    findToolCall tcid (Msg.system c :: rest) = findToolCall tcid rest := rfl

@[simp] lemma findToolCall_user (tcid c : String) (rest : List Msg) :
    findToolCall tcid (Msg.user c :: rest) = false := rfl

@[simp] lemma findToolCall_assistant (tcid c : String) (calls : List ToolCall)
    (rest : List Msg) :
    findToolCall tcid (Msg.assistant c calls :: rest) =
      (calls.any (fun tc => tc.id == tcid) || findToolCall tcid rest) := rfl

@[simp] lemma findToolCall_tool (tcid a b : String) (rest : List Msg) :
    findToolCall tcid (Msg.tool a b :: rest) = findToolCall tcid rest := rfl

@[simp] lemma windowAssistants_nil : windowAssistants [] = [] := rfl

@[simp] lemma windowAssistants_system (c : String) (rest : List Msg) :
    windowAssistants (Msg.system c :: rest) = windowAssistants rest := rfl

@[simp] lemma windowAssistants_user (c : String) (rest : List Msg) :
    windowAssistants (Msg.user c :: rest) = [] := rfl

@[simp] lemma windowAssistants_assistant (c : String) (calls : List ToolCall)
    (rest : List Msg) :
    windowAssistants (Msg.assistant c calls :: rest) =
      calls :: windowAssistants rest := rfl

@[simp] lemma windowAssistants_tool (a b : String) (rest : List Msg) :
    windowAssistants (Msg.tool a b :: rest) = windowAssistants rest := rfl

@[simp] lemma validateFrom_nil (rev : List Msg) : validateFrom rev [] = true := rfl

@[simp] lemma validateFrom_cons (rev : List Msg) (m : Msg) (rest : List Msg) :
    validateFrom rev (m :: rest) = (toolOk rev m && validateFrom (m :: rev) rest) := rfl

@[simp] lemma toolOk_system (rev : List Msg) (c : String) :
    toolOk rev (Msg.system c) = true := rfl

@[simp] lemma toolOk_user (rev : List Msg) (c : String) :
    toolOk rev (Msg.user c) = true := rfl

@[simp] lemma toolOk_assistant (rev : List Msg) (c : String) (calls : List ToolCall) :
    toolOk rev (Msg.assistant c calls) = true := rfl

@[simp] lemma toolOk_tool (rev : List Msg) (tcid c : String) :
    toolOk rev (Msg.tool tcid c) = findToolCall tcid rev := rfl

/-- The backward scan of the source agrees with the spec-side window
formulation: it succeeds iff some assistant turn in the window has a matching
tool call. -/
lemma findToolCall_eq_window (tcid : String) :
    ∀ rev : List Msg, findToolCall tcid rev =
      (windowAssistants rev).any (fun calls => calls.any (fun tc => tc.id == tcid))
  | [] => rfl
  | Msg.system _ :: rest => by simp [findToolCall_eq_window tcid rest]
  | Msg.user _ :: _ => by simp
  | Msg.assistant _ _ :: rest => by simp [findToolCall_eq_window tcid rest]
  | Msg.tool _ _ :: rest => by simp [findToolCall_eq_window tcid rest]

/-- The scan fails exactly when no assistant turn in the window matches. -/
lemma findToolCall_false_iff (tcid : String) (rev : List Msg) :
    findToolCall tcid rev = false ↔ windowMatches tcid rev = 0 := by
  rw [findToolCall_eq_window, windowMatches, List.countP_eq_zero]
  simp [List.any_eq_true]

/-- Validation, via `validateFrom rev rest`, fails exactly when `rest` contains a tool message
whose backward window (through `rev`) has no matching assistant turn. -/
lemma validateFrom_false_iff :
    ∀ (rest rev : List Msg),
      validateFrom rev rest = false ↔
        ∃ l1 tcid c l2, rest = l1 ++ Msg.tool tcid c :: l2 ∧
          findToolCall tcid (l1.reverse ++ rev) = false
  | [], rev => by
      constructor
      · intro h; simp at h
      · rintro ⟨l1, tcid, c, l2, heq, -⟩
        exact absurd heq (by simp)
  | m :: rest, rev => by
      have ih := validateFrom_false_iff rest (m :: rev)
      constructor
      · intro h
        rw [validateFrom_cons, Bool.and_eq_false_iff] at h
        rcases h with hm | hrest
        · cases m with
          | tool tcid c => exact ⟨[], tcid, c, rest, rfl, by simpa using hm⟩
          | system c => simp at hm
          | user c => simp at hm
          | assistant c calls => simp at hm
        · rcases ih.mp hrest with ⟨l1, tcid, c, l2, heq, hf⟩
          refine ⟨m :: l1, tcid, c, l2, by simp [heq], ?_⟩
          simpa [List.append_assoc] using hf
      · rintro ⟨l1, tcid, c, l2, heq, hf⟩
        rw [validateFrom_cons, Bool.and_eq_false_iff]
        cases l1 with
        | nil =>
            obtain ⟨rfl, rfl⟩ : m = Msg.tool tcid c ∧ rest = l2 := by
              simpa using heq
            left; simpa using hf
        | cons m' l1' =>
            obtain ⟨rfl, hrest⟩ : m' = m ∧ rest = l1' ++ Msg.tool tcid c :: l2 := by
              have := heq
              simp at this
              exact ⟨this.1.symm, this.2⟩
            right
            exact ih.mpr ⟨l1', tcid, c, l2, hrest, by
              simpa [List.append_assoc] using hf⟩

/-- C1, amended: `validate()` returns false iff the log contains a tool
message whose backward window — up to the most recent user message
(exclusive) or the start of the log — contains **no** (rather than not
exactly one) assistant turn with a matching tool call. -/
theorem validateMessages_false_iff_orphan (msgs : List Msg) :
    validateMessages msgs = false ↔
      ∃ l1 tcid c l2, msgs = l1 ++ Msg.tool tcid c :: l2 ∧
        windowMatches tcid l1.reverse = 0 := by
  rw [validateMessages, validateFrom_false_iff]
  constructor
  · rintro ⟨l1, tcid, c, l2, heq, hf⟩
    exact ⟨l1, tcid, c, l2, heq, (findToolCall_false_iff _ _).mp (by simpa using hf)⟩
  · rintro ⟨l1, tcid, c, l2, heq, hz⟩
    exact ⟨l1, tcid, c, l2, heq, by
      simpa using (findToolCall_false_iff tcid l1.reverse).mpr hz⟩

/-- C1, counterexample to the claim as stated: a log in which the tool
message's window contains **two** matching assistant turns.  Under the
claim's "exactly one" definition the tool message is orphaned, so
`validate()` would have to return false; the code returns true (its backward
scan stops at the first match). -/
theorem validateMessages_counterexample :
    validateMessages
        [Msg.assistant "" [⟨"t1", "get_time", ""⟩],
         Msg.assistant "" [⟨"t1", "get_time", ""⟩],
         Msg.tool "t1" "12:00"] = true ∧
      specHasOrphan
        [Msg.assistant "" [⟨"t1", "get_time", ""⟩],
         Msg.assistant "" [⟨"t1", "get_time", ""⟩],
         Msg.tool "t1" "12:00"] = true := by
  constructor <;> rfl

/-! ### Repair (`makeOpenAIRequest`'s orphan filter) -/

/-- The orphan-removing filter of `makeOpenAIRequest`: every non-tool message
is kept; a tool message is kept iff the same backward scan as in
`validateMessages`, over the messages before it in the **original** list,
finds its `tool_call_id`.  (In the source the filter looks the message up by
`indexOf`, reference equality; since every pushed message is a distinct
object, that is exactly its position, which the accumulator `rev` tracks —
note that `rev` always receives the original head `m`, dropped or not.) -/
def repairFrom (rev : List Msg) : List Msg → List Msg
  | [] => []
  | m :: rest => (if toolOk rev m then [m] else []) ++ repairFrom (m :: rev) rest

/-- The whole repair pass over the log. -/
def repairMessages (msgs : List Msg) : List Msg :=
  repairFrom [] msgs

/-- Spec-side keep predicate (§4.3): keep a `ToolResultTurn` iff some
assistant turn in its backward window has a matching tool request. -/
def specKeep (rev : List Msg) : Msg → Bool
  | Msg.tool tcid _ =>
      (windowAssistants rev).any (fun calls => calls.any (fun tc => tc.id == tcid))
  | _ => true

/-- Spec-side repair: positionally remove exactly the orphaned tool turns. -/
def specRepairFrom (rev : List Msg) : List Msg → List Msg
  | [] => []
  | m :: rest => (if specKeep rev m then [m] else []) ++ specRepairFrom (m :: rev) rest

/-- Spec-side repair over the whole log. -/
def specRepair (msgs : List Msg) : List Msg :=
  specRepairFrom [] msgs

@[simp] lemma repairFrom_nil (rev : List Msg) : repairFrom rev [] = [] := rfl

@[simp] lemma repairFrom_cons (rev : List Msg) (m : Msg) (rest : List Msg) :
    repairFrom rev (m :: rest) =
      (if toolOk rev m then [m] else []) ++ repairFrom (m :: rev) rest := rfl

lemma toolOk_eq_specKeep (rev : List Msg) (m : Msg) :
    toolOk rev m = specKeep rev m := by
  cases m with
  | tool tcid c => simp [specKeep, findToolCall_eq_window]
  | system c => rfl
  | user c => rfl
  | assistant c calls => rfl

lemma repairFrom_eq_spec : ∀ (rest rev : List Msg),
    repairFrom rev rest = specRepairFrom rev rest
  | [], _ => rfl
  | m :: rest, rev => by
      rw [repairFrom_cons, specRepairFrom, toolOk_eq_specKeep,
        repairFrom_eq_spec rest (m :: rev)]

lemma repairFrom_sublist : ∀ (rest rev : List Msg), List.Sublist (repairFrom rev rest) rest
  | [], _ => List.Sublist.refl []
  | m :: rest, rev => by
      by_cases h : toolOk rev m = true
      · simpa [h] using (repairFrom_sublist rest (m :: rev)).cons₂ m
      · simpa [h] using (repairFrom_sublist rest (m :: rev)).cons m

lemma repairFrom_of_validateFrom : ∀ (rest rev : List Msg),
    validateFrom rev rest = true → repairFrom rev rest = rest
  | [], _, _ => rfl
  | m :: rest, rev, h => by
      rw [validateFrom_cons, Bool.and_eq_true] at h
      rw [repairFrom_cons, h.1, repairFrom_of_validateFrom rest (m :: rev) h.2]
      simp

lemma validateFrom_repairFrom :
    ∀ (rest rev rev' : List Msg),
      (∀ tcid, findToolCall tcid rev' = findToolCall tcid rev) →
      validateFrom rev' (repairFrom rev rest) = true
  | [], _, _, _ => rfl
  | Msg.system c :: rest, rev, rev', h => by
      rw [repairFrom_cons]
      simpa using validateFrom_repairFrom rest (Msg.system c :: rev)
        (Msg.system c :: rev') (fun tcid => by simpa using h tcid)
  | Msg.user c :: rest, rev, rev', h => by
      rw [repairFrom_cons]
      simpa using validateFrom_repairFrom rest (Msg.user c :: rev)
        (Msg.user c :: rev') (fun tcid => by simp)
  | Msg.assistant c calls :: rest, rev, rev', h => by
      rw [repairFrom_cons]
      simpa using validateFrom_repairFrom rest (Msg.assistant c calls :: rev)
        (Msg.assistant c calls :: rev') (fun tcid => by simp [h tcid])
  | Msg.tool tcid c :: rest, rev, rev', h => by
      rw [repairFrom_cons]
      by_cases hf : findToolCall tcid rev = true
      · have hk : toolOk rev (Msg.tool tcid c) = true := by simpa using hf
        rw [hk]
        have hrec := validateFrom_repairFrom rest (Msg.tool tcid c :: rev)
          (Msg.tool tcid c :: rev') (fun id => by simpa using h id)
        simp [hrec, h tcid, hf]
      · have hk : toolOk rev (Msg.tool tcid c) = false := by
          simpa using Bool.eq_false_iff.mpr hf
        rw [hk]
        simpa using validateFrom_repairFrom rest (Msg.tool tcid c :: rev) rev'
          (fun id => by simpa using h id)

/-- C2, amended: `repair()` removes exactly the tool messages with **no**
matching assistant turn in their backward window (the code's orphan notion,
not the spec's exactly-one notion), preserves the relative order of the rest
(the result is a sublist of the input), the repaired log passes `validate()`,
repair is idempotent, and repairing an already-valid log is a no-op. -/
theorem repairMessages_correct (msgs : List Msg) :
    repairMessages msgs = specRepair msgs ∧
    List.Sublist (repairMessages msgs) msgs ∧
    validateMessages (repairMessages msgs) = true ∧
    repairMessages (repairMessages msgs) = repairMessages msgs ∧
    (validateMessages msgs = true → repairMessages msgs = msgs) := by
  have hval : validateMessages (repairMessages msgs) = true :=
    validateFrom_repairFrom msgs [] [] (fun _ => rfl)
  exact ⟨repairFrom_eq_spec msgs [], repairFrom_sublist msgs [], hval,
    repairFrom_of_validateFrom _ [] hval,
    fun h => repairFrom_of_validateFrom msgs [] h⟩

/-- C2, witness: the amended theorem applied to a concrete valid log. -/
theorem repairMessages_correct_witness :
    validateMessages
        [Msg.system "s", Msg.user "hello",
         Msg.assistant "" [⟨"t1", "get_time", ""⟩], Msg.tool "t1" "12:00",
         Msg.assistant "It is noon" []] = true ∧
      repairMessages
        [Msg.system "s", Msg.user "hello",
         Msg.assistant "" [⟨"t1", "get_time", ""⟩], Msg.tool "t1" "12:00",
         Msg.assistant "It is noon" []] =
        [Msg.system "s", Msg.user "hello",
         Msg.assistant "" [⟨"t1", "get_time", ""⟩], Msg.tool "t1" "12:00",
         Msg.assistant "It is noon" []] :=
  ⟨by rfl, (repairMessages_correct _).2.2.2.2 (by rfl)⟩

/-- C2, counterexample to the claim as stated: under the claim's §3 orphan
definition ("exactly one"), the duplicated-request log contains an orphaned
`ToolResultTurn`, yet `repair()` removes nothing — it does not remove
"exactly the orphaned `ToolResultTurn`s" in that sense. -/
theorem repairMessages_counterexample :
    specHasOrphan
        [Msg.assistant "a" [⟨"t7", "get_time", ""⟩],
         Msg.assistant "b" [⟨"t7", "get_time", ""⟩],
         Msg.tool "t7" "ok"] = true ∧
      repairMessages
        [Msg.assistant "a" [⟨"t7", "get_time", ""⟩],
         Msg.assistant "b" [⟨"t7", "get_time", ""⟩],
         Msg.tool "t7" "ok"] =
        [Msg.assistant "a" [⟨"t7", "get_time", ""⟩],
         Msg.assistant "b" [⟨"t7", "get_time", ""⟩],
         Msg.tool "t7" "ok"] := by
  constructor <;> rfl

/-! ### Truncation (`MeetingAgent.truncateMessages`) -/

/-- The check `prevMessage.tool_calls && prevMessage.tool_calls.length > 0`. -/
def hasCalls : Msg → Bool
  | Msg.assistant _ calls => !calls.isEmpty
  | _ => false

/-- The check `messageAtIndex.role === "tool"`. -/
def isToolMsg : Msg → Bool
  | Msg.tool _ _ => true
  | _ => false

/-- The shift condition of the `while` loop in `truncateMessages`: the
message at the candidate cut index is a tool message, or the message right
before it carries a nonempty `tool_calls` list. -/
def shiftCond (rest : List Msg) (i : Nat) : Bool :=
  match rest[i]? with
  | some m =>
      isToolMsg m ||
        (match rest[i - 1]? with
         | some p => hasCalls p
         | none => false)
  | none => false

/-- The `while (truncateIndex > 0 && truncateIndex < messagesToKeep.length)`
loop: decrement while the shift condition holds, stop at 0 or on a safe
boundary (the loop body never increases the index). -/
def shiftIndex (rest : List Msg) : Nat → Nat
  | 0 => 0
  | i + 1 =>
      if i + 1 < rest.length then
        if shiftCond rest (i + 1) then shiftIndex rest i else i + 1
      else i + 1

/-- The source's `MeetingAgent.truncateMessages`: a no-op for logs of at most 15 messages;
otherwise keep the first message (the system message) and the suffix of the
rest starting at the shifted cut index (naively `length - 14`, moved earlier
while the shift condition holds). -/
def truncateMessages (msgs : List Msg) : List Msg :=
  if msgs.length ≤ 15 then msgs
  else
    match msgs with
    | [] => []
    | sys :: rest => sys :: rest.drop (shiftIndex rest (rest.length - 14))

/-- Block shape of the logs the agent actually builds: a sequence of user
turns, plain assistant turns, and assistant turns with tool calls each
immediately followed by one tool result per call, in order, with matching
ids.  `pending` is the list of tool calls whose results are still owed. -/
def blocksAux : List ToolCall → List Msg → Bool
  | [], [] => true
  | [], Msg.user _ :: r => blocksAux [] r
  | [], Msg.assistant _ calls :: r => blocksAux calls r
  | [], Msg.system _ :: _ => false
  | [], Msg.tool _ _ :: _ => false
  | _ :: _, [] => false
  | c :: cs, Msg.tool tcid _ :: r => tcid == c.id && blocksAux cs r
  | _ :: _, Msg.user _ :: _ => false
  | _ :: _, Msg.assistant _ _ :: _ => false
  | _ :: _, Msg.system _ :: _ => false

/-- A log (without its system head) in block shape. -/
def isBlocks (msgs : List Msg) : Bool := blocksAux [] msgs

@[simp] lemma blocksAux_nil_nil : blocksAux [] [] = true := rfl

@[simp] lemma blocksAux_nil_user (c : String) (r : List Msg) :
    blocksAux [] (Msg.user c :: r) = blocksAux [] r := rfl

@[simp] lemma blocksAux_nil_assistant (c : String) (calls : List ToolCall)
    (r : List Msg) :
    blocksAux [] (Msg.assistant c calls :: r) = blocksAux calls r := rfl

@[simp] lemma blocksAux_nil_system (c : String) (r : List Msg) :
    blocksAux [] (Msg.system c :: r) = false := rfl

@[simp] lemma blocksAux_nil_tool (a b : String) (r : List Msg) :
    blocksAux [] (Msg.tool a b :: r) = false := rfl

@[simp] lemma blocksAux_cons_nil (c : ToolCall) (cs : List ToolCall) :
    blocksAux (c :: cs) [] = false := rfl

@[simp] lemma blocksAux_cons_tool (c : ToolCall) (cs : List ToolCall)
    (tcid ct : String) (r : List Msg) :
    blocksAux (c :: cs) (Msg.tool tcid ct :: r) = (tcid == c.id && blocksAux cs r) := rfl

@[simp] lemma blocksAux_cons_user (c : ToolCall) (cs : List ToolCall)
    (uc : String) (r : List Msg) :
    blocksAux (c :: cs) (Msg.user uc :: r) = false := rfl

@[simp] lemma blocksAux_cons_assistant (c : ToolCall) (cs : List ToolCall)
    (ac : String) (calls : List ToolCall) (r : List Msg) :
    blocksAux (c :: cs) (Msg.assistant ac calls :: r) = false := rfl

@[simp] lemma blocksAux_cons_system (c : ToolCall) (cs : List ToolCall)
    (sc : String) (r : List Msg) :
    blocksAux (c :: cs) (Msg.system sc :: r) = false := rfl

/-- With results still owed, a block-shaped log must continue with a tool
result. -/
lemma blocksAux_cons_head (c : ToolCall) (cs : List ToolCall) (l : List Msg)
    (h : blocksAux (c :: cs) l = true) :
    ∃ tcid ct r, l = Msg.tool tcid ct :: r := by
  cases l with
  | nil => simp at h
  | cons m r =>
      cases m with
      | tool tcid ct => exact ⟨tcid, ct, r, rfl⟩
      | user uc => simp at h
      | assistant ac calls => simp at h
      | system sc => simp at h

/-- The shift loop never increases the cut index. -/
lemma shiftIndex_le (rest : List Msg) : ∀ i, shiftIndex rest i ≤ i
  | 0 => Nat.le_refl 0
  | i + 1 => by
      rw [shiftIndex]
      split
      · split
        · exact Nat.le_succ_of_le (shiftIndex_le rest i)
        · exact Nat.le_refl _
      · exact Nat.le_refl _

/-- Where the shift loop can stop: at 0, past the end, or on an index where
the shift condition fails. -/
lemma shiftIndex_spec (rest : List Msg) : ∀ i,
    shiftIndex rest i = 0 ∨ rest.length ≤ shiftIndex rest i ∨
      shiftCond rest (shiftIndex rest i) = false
  | 0 => Or.inl rfl
  | i + 1 => by
      rw [shiftIndex]
      split
      · split
        · exact shiftIndex_spec rest i
        · rename_i hcond
          exact Or.inr (Or.inr (by simpa using hcond))
      · rename_i hlen
        exact Or.inr (Or.inl (by omega))

lemma shiftCond_cons (m : Msg) (r : List Msg) (j : Nat) (hj : 1 ≤ j) :
    shiftCond (m :: r) (j + 1) = shiftCond r j := by
  obtain ⟨j', rfl⟩ : ∃ j', j = j' + 1 := ⟨j - 1, by omega⟩
  simp [shiftCond]

lemma shiftCond_one (m m' : Msg) (r : List Msg) :
    shiftCond (m :: m' :: r) 1 = (isToolMsg m' || hasCalls m) := by
  simp [shiftCond]

/-- Dropping a block-shaped list at an in-range index where the shift
condition fails yields a block-shaped list: the loop only stops on block
boundaries. -/
lemma blocksAux_drop (rest : List Msg) : ∀ (pending : List ToolCall) (j : Nat),
    blocksAux pending rest = true → 1 ≤ j → j < rest.length →
    shiftCond rest j = false → isBlocks (rest.drop j) = true := by
  induction rest with
  | nil => intro pending j _ _ hlen _; simp at hlen
  | cons m r ih =>
      intro pending j h hj hlen hc
      obtain ⟨j', rfl⟩ : ∃ j', j = j' + 1 := ⟨j - 1, by omega⟩
      rcases Nat.eq_zero_or_pos j' with rfl | hj'
      · -- cut index 1: the cut falls right after the head message
        obtain ⟨m', r', rfl⟩ : ∃ m' r', r = m' :: r' := by
          cases r with
          | nil => simp at hlen
          | cons a b => exact ⟨a, b, rfl⟩
        rw [Nat.zero_add, shiftCond_one, Bool.or_eq_false_iff] at hc
        rw [List.drop_succ_cons, List.drop_zero]
        cases pending with
        | nil =>
            cases m with
            | user c => simpa using h
            | assistant c calls =>
                have hcalls : calls = [] := by
                  have := hc.2
                  simp [hasCalls] at this
                  exact this
                subst hcalls
                simpa using h
            | system c => simp at h
            | tool a b => simp at h
        | cons c0 cs =>
            cases m with
            | tool tcid ct =>
                rw [blocksAux_cons_tool, Bool.and_eq_true] at h
                cases cs with
                | nil => simpa using h.2
                | cons c1 cs' =>
                    obtain ⟨a, b, rr, hr⟩ := blocksAux_cons_head c1 cs' _ h.2
                    have hm : m' = Msg.tool a b := by injection hr
                    rw [hm] at hc
                    simp [isToolMsg] at hc
            | user c => simp at h
            | assistant c calls => simp at h
            | system c => simp at h
      · -- cut index at least 2: recurse into the tail
        rw [List.drop_succ_cons]
        have hlen' : j' < r.length := by simpa using hlen
        have hc' : shiftCond r j' = false := by
          rw [← shiftCond_cons m r j' hj']
          exact hc
        cases pending with
        | nil =>
            cases m with
            | user c => exact ih [] j' (by simpa using h) hj' hlen' hc'
            | assistant c calls => exact ih calls j' (by simpa using h) hj' hlen' hc'
            | system c => simp at h
            | tool a b => simp at h
        | cons c0 cs =>
            cases m with
            | tool tcid ct =>
                rw [blocksAux_cons_tool, Bool.and_eq_true] at h
                exact ih cs j' h.2 hj' hlen' hc'
            | user c => simp at h
            | assistant c calls => simp at h
            | system c => simp at h

/-- Each message of a block-shaped list passes the backward scan, for any
already-scanned prefix that supplies the still-pending tool calls. -/
lemma validateFrom_blocksAux :
    ∀ (l : List Msg) (pending : List ToolCall) (rev : List Msg),
      blocksAux pending l = true →
      (∀ tc ∈ pending, findToolCall tc.id rev = true) →
      validateFrom rev l = true
  | [], _, _, _, _ => rfl
  | m :: r, pending, rev, h, hinv => by
      cases pending with
      | nil =>
          cases m with
          | user c =>
              simp only [validateFrom_cons, toolOk_user, Bool.true_and]
              exact validateFrom_blocksAux r [] (Msg.user c :: rev)
                (by simpa using h) (by simp)
          | assistant c calls =>
              simp only [validateFrom_cons, toolOk_assistant, Bool.true_and]
              refine validateFrom_blocksAux r calls (Msg.assistant c calls :: rev)
                (by simpa using h) ?_
              intro tc htc
              simp only [findToolCall_assistant, Bool.or_eq_true, List.any_eq_true]
              exact Or.inl ⟨tc, htc, by simp⟩
          | system c => simp at h
          | tool a b => simp at h
      | cons c0 cs =>
          cases m with
          | tool tcid ct =>
              rw [blocksAux_cons_tool, Bool.and_eq_true] at h
              have hid : tcid = c0.id := by
                have := h.1
                exact eq_of_beq this
              simp only [validateFrom_cons, toolOk_tool]
              have hfind : findToolCall tcid rev = true := by
                rw [hid]
                exact hinv c0 (List.mem_cons_self c0 cs)
              rw [hfind, Bool.true_and]
              exact validateFrom_blocksAux r cs (Msg.tool tcid ct :: rev) h.2
                (fun tc htc => by
                  simpa using hinv tc (List.mem_cons_of_mem c0 htc))
          | user c => simp at h
          | assistant a b => simp at h
          | system sc => simp at h

/-- A block-shaped log prefixed with the system message passes validation. -/
lemma isBlocks_validate (l : List Msg) (hb : isBlocks l = true) (s : String) :
    validateMessages (Msg.system s :: l) = true := by
  rw [validateMessages]
  simp only [validateFrom_cons, toolOk_system, Bool.true_and]
  exact validateFrom_blocksAux l [] [Msg.system s] hb (by simp)

/-- Truncation never moves the first message. -/
lemma truncateMessages_head (msgs : List Msg) :
    (truncateMessages msgs).head? = msgs.head? := by
  rw [truncateMessages.eq_def]
  split
  · rfl
  · cases msgs <;> rfl

/-- C3, amended: for a log consisting of the system message followed by a
block-shaped tail — the only shape the agent ever builds, where every
`ToolResultTurn` immediately follows the `AssistantTurn` that issued its
request (after that turn's earlier results) — `truncateMessages` never
separates a tool result from its requesting assistant turn (the result still
passes `validateMessages`), keeps the `SystemTurn` at index 0, and truncates
only when the log length exceeds 15 = 1 + keepLast.  Without the block-shape
hypothesis the no-orphan part is false (see the counterexample). -/
theorem truncateMessages_amended (s : String) (rest : List Msg)
    (hb : isBlocks rest = true) :
    validateMessages (truncateMessages (Msg.system s :: rest)) = true ∧
    (truncateMessages (Msg.system s :: rest)).head? = some (Msg.system s) ∧
    ((Msg.system s :: rest).length ≤ 15 →
      truncateMessages (Msg.system s :: rest) = Msg.system s :: rest) := by
  refine ⟨?_, truncateMessages_head _, fun h => by rw [truncateMessages, if_pos h]⟩
  by_cases hlen : (Msg.system s :: rest).length ≤ 15
  · rw [truncateMessages, if_pos hlen]
    exact isBlocks_validate rest hb s
  · rw [truncateMessages, if_neg hlen]
    rcases Nat.eq_zero_or_pos (shiftIndex rest (rest.length - 14)) with hz | hpos
    · rw [hz, List.drop_zero]
      exact isBlocks_validate rest hb s
    · rcases Nat.lt_or_ge (shiftIndex rest (rest.length - 14)) rest.length with hlt | hge
      · have hcond : shiftCond rest (shiftIndex rest (rest.length - 14)) = false := by
          rcases shiftIndex_spec rest (rest.length - 14) with h0 | hge2 | hc
          · omega
          · omega
          · exact hc
        exact isBlocks_validate _ (blocksAux_drop rest [] _ hb hpos hlt hcond) s
      · rw [List.drop_eq_nil_of_le hge]
        rfl

/-- C3, witness: the amended theorem applied to a concrete 17-message
block-shaped log (truncation really happens and the result still validates). -/
theorem truncateMessages_amended_witness :
    isBlocks
        (Msg.user "u0" :: Msg.assistant "a" [⟨"t1", "f", ""⟩] ::
          Msg.tool "t1" "r" :: List.replicate 13 (Msg.user "u")) = true ∧
      validateMessages (truncateMessages (Msg.system "s" ::
        Msg.user "u0" :: Msg.assistant "a" [⟨"t1", "f", ""⟩] ::
          Msg.tool "t1" "r" :: List.replicate 13 (Msg.user "u"))) = true :=
  ⟨by decide, (truncateMessages_amended "s" _ (by decide)).1⟩

/-- C3, counterexample to the claim as stated: a 17-message log that passes
`validateMessages` (the tool result's window reaches its requesting assistant
turn through two interposed plain assistant turns), yet after
`truncateMessages` the cut lands between them and the tool result survives
without its assistant turn — the truncated log fails `validateMessages`. -/
theorem truncateMessages_counterexample :
    validateMessages
        (Msg.system "s" :: Msg.assistant "a" [⟨"t1", "f", ""⟩] ::
          Msg.assistant "b" [] :: Msg.assistant "c" [] :: Msg.tool "t1" "r" ::
          List.replicate 12 (Msg.user "u")) = true ∧
      validateMessages (truncateMessages
        (Msg.system "s" :: Msg.assistant "a" [⟨"t1", "f", ""⟩] ::
          Msg.assistant "b" [] :: Msg.assistant "c" [] :: Msg.tool "t1" "r" ::
          List.replicate 12 (Msg.user "u"))) = false := by
  constructor <;> decide

/-- C10: the safe-boundary shift never moves the cut later than the naive
cut point `length - 14`, so the truncated log is the system message plus a
suffix of the tail that contains at least the 14 most recent messages; and
(second conjunct) the post-truncation length can exceed 15 when the shift is
needed. -/
theorem truncateMessages_shift_only_earlier (m : Msg) (rest : List Msg)
    (h : 15 < (m :: rest).length) :
    (∃ k, k ≤ rest.length - 14 ∧
        truncateMessages (m :: rest) = m :: rest.drop k) ∧
      15 < (truncateMessages (Msg.system "s" :: Msg.user "u" ::
        Msg.assistant "a" (List.replicate 14 ⟨"x", "f", ""⟩) ::
        List.replicate 14 (Msg.tool "x" "r"))).length := by
  constructor
  · refine ⟨shiftIndex rest (rest.length - 14), shiftIndex_le rest _, ?_⟩
    rw [truncateMessages.eq_def, if_neg (by omega)]
  · decide

/-- C10, witness: the theorem applied to a concrete 16-message log. -/
theorem truncateMessages_shift_only_earlier_witness :
    ∃ k, k ≤ (Msg.user "u0" :: Msg.assistant "a" [⟨"t1", "f", ""⟩] ::
        Msg.tool "t1" "r" :: List.replicate 13 (Msg.user "u")).length - 14 ∧
      truncateMessages (Msg.system "s" :: Msg.user "u0" ::
        Msg.assistant "a" [⟨"t1", "f", ""⟩] ::
        Msg.tool "t1" "r" :: List.replicate 13 (Msg.user "u")) =
        Msg.system "s" :: (Msg.user "u0" :: Msg.assistant "a" [⟨"t1", "f", ""⟩] ::
          Msg.tool "t1" "r" :: List.replicate 13 (Msg.user "u")).drop k :=
  (truncateMessages_shift_only_earlier (Msg.system "s") _ (by decide)).1

/-! ### The tool-call cycle of `processNewSegments` -/

/-- One model response: the message content and its `tool_calls` (the API's
absent `tool_calls` field is modelled as the empty list). -/
structure ModelResponse where
  content : String
  toolCalls : List ToolCall
deriving DecidableEq, Repr

/-- The string `JSON.stringify({ error: "Tool execution failed" })`, the payload pushed
when `mcp.callTool` throws. -/
def errorPayload : String := "\x7b\"error\":\"Tool execution failed\"\x7d"

/-- The tool message pushed for one tool call: the gateway outcome is an
oracle `exec` (`some` = the stringified success content, `none` = the call
threw); on failure the structured error payload is pushed instead, so the
per-call `try/catch` never lets the exception escape. -/
def toolResultMsg (exec : ToolCall → Option String) (tc : ToolCall) : Msg :=
  Msg.tool tc.id
    (match exec tc with
     | some s => s
     | none => errorPayload)

/-- The `for (const toolCall of message.tool_calls)` loop: one tool message
per call, in the order the model listed them. -/
def execBatch (exec : ToolCall → Option String) (calls : List ToolCall) : List Msg :=
  calls.map (toolResultMsg exec)

/-- The mutation `makeOpenAIRequest` performs before calling the API:
if validation fails, replace the log with the repaired log. -/
def prepareMessages (msgs : List Msg) : List Msg :=
  if validateMessages msgs then msgs else repairMessages msgs

/-- One cycle of `processNewSegments` after the user turn is in place, with
the two model responses (`r1` for the initial call, `r2` for the hardcoded
single follow-up) as oracles.  Returns the resulting log and the number of
model calls made.  Note the source recurses no further: if the follow-up
response carries tool calls, their results are appended and the cycle ends. -/
def runCycle (exec : ToolCall → Option String) (r1 r2 : ModelResponse)
    (msgs : List Msg) : List Msg × Nat :=
  let m1 := prepareMessages msgs ++ [Msg.assistant r1.content r1.toolCalls]
  if r1.toolCalls.isEmpty then (m1, 1)
  else
    let m2 := m1 ++ execBatch exec r1.toolCalls
    let m3 := prepareMessages m2 ++ [Msg.assistant r2.content r2.toolCalls]
    if r2.toolCalls.isEmpty then (m3, 2)
    else (m3 ++ execBatch exec r2.toolCalls, 2)

/-- Final state of a cycle in the sense of §4.4: the log ends with an
assistant turn that requests no tools. -/
def cycleResolved (msgs : List Msg) : Bool :=
  match msgs.getLast? with
  | some (Msg.assistant _ calls) => calls.isEmpty
  | _ => false

lemma getLast?_append_singleton {α : Type} (l : List α) (a : α) :
    (l ++ [a]).getLast? = some a := by
  rw [List.getLast?_concat]

lemma cycleResolved_append_final (l : List Msg) (c : String) :
    cycleResolved (l ++ [Msg.assistant c []]) = true := by
  rw [cycleResolved, getLast?_append_singleton]
  rfl

lemma execBatch_getLast (exec : ToolCall → Option String) :
    ∀ (calls : List ToolCall), calls ≠ [] →
      ∃ tc, (execBatch exec calls).getLast? = some (toolResultMsg exec tc)
  | [], h => absurd rfl h
  | [c], _ => ⟨c, rfl⟩
  | c :: c' :: cs, _ => by
      obtain ⟨tc, htc⟩ := execBatch_getLast exec (c' :: cs) (by simp)
      refine ⟨tc, ?_⟩
      rw [execBatch, List.map_cons, List.map_cons, List.getLast?_cons_cons]
      simpa [execBatch] using htc

lemma cycleResolved_append_batch (l : List Msg) (exec : ToolCall → Option String)
    (calls : List ToolCall) (h : calls ≠ []) :
    cycleResolved (l ++ execBatch exec calls) = false := by
  obtain ⟨tc, htc⟩ := execBatch_getLast exec calls h
  have hne : execBatch exec calls ≠ [] := by
    simp [execBatch, h]
  rw [cycleResolved, List.getLast?_append_of_ne_nil _ hne, htc, toolResultMsg]

/-- C4, amended: the cycle of `processNewSegments` makes at most two model
calls (the initial call and one hardcoded follow-up), so it terminates well
inside any step budget of at least two; it ends in a `Final` state (the log
ends with an assistant turn requesting no tools) whenever the initial or the
follow-up response carries no tool requests — but when **both** carry tool
requests, the follow-up batch's results are appended and the cycle ends
without a further model call, leaving the unresolved state the original
claim rules out. -/
theorem runCycle_amended (exec : ToolCall → Option String) (r1 r2 : ModelResponse)
    (msgs : List Msg) :
    (runCycle exec r1 r2 msgs).2 ≤ 2 ∧
    (r1.toolCalls = [] ∨ r2.toolCalls = [] →
      cycleResolved (runCycle exec r1 r2 msgs).1 = true) ∧
    (r1.toolCalls ≠ [] → r2.toolCalls ≠ [] →
      cycleResolved (runCycle exec r1 r2 msgs).1 = false) := by
  obtain ⟨c1, calls1⟩ := r1
  obtain ⟨c2, calls2⟩ := r2
  cases calls1 with
  | nil =>
      refine ⟨?_, fun _ => ?_, fun hne _ => absurd rfl hne⟩
      · simp [runCycle]
      · simp only [runCycle]
        rw [if_pos (by simp)]
        exact cycleResolved_append_final _ c1
  | cons a1 l1 =>
      cases calls2 with
      | nil =>
          refine ⟨?_, fun _ => ?_, fun _ hne => absurd rfl hne⟩
          · simp [runCycle]
          · simp only [runCycle]
            rw [if_neg (by simp), if_pos (by simp)]
            exact cycleResolved_append_final _ c2
      | cons a2 l2 =>
          refine ⟨?_, ?_, fun _ _ => ?_⟩
          · simp [runCycle]
          · rintro (h | h) <;> simp at h
          · simp only [runCycle]
            rw [if_neg (by simp), if_neg (by simp)]
            exact cycleResolved_append_batch _ exec (a2 :: l2) (by simp)

/-- C4, witness: the amended theorem applied to a concrete input whose
follow-up response carries no tool calls. -/
theorem runCycle_amended_witness :
    (⟨"", [⟨"t1", "get_time", ""⟩]⟩ : ModelResponse).toolCalls = [] ∨
      (⟨"It is noon", []⟩ : ModelResponse).toolCalls = [] ∧
    cycleResolved (runCycle (fun _ => some "12:00")
      ⟨"", [⟨"t1", "get_time", ""⟩]⟩ ⟨"It is noon", []⟩
      [Msg.system "s", Msg.user "hi"]).1 = true :=
  Or.inr ⟨rfl, ((runCycle_amended (fun _ => some "12:00")
    ⟨"", [⟨"t1", "get_time", ""⟩]⟩ ⟨"It is noon", []⟩
    [Msg.system "s", Msg.user "hi"]).2.1 (Or.inr rfl))⟩

/-- C4, counterexample to the claim as stated: when both the initial and the
follow-up response request tools, the cycle appends the second batch's tool
results and stops — the final state is neither `Final` nor a truncation
notice, but the unresolved state the claim says never occurs. -/
theorem runCycle_counterexample :
    cycleResolved (runCycle (fun _ => some "ok")
      ⟨"", [⟨"t1", "get_time", ""⟩]⟩ ⟨"", [⟨"t2", "get_weather", ""⟩]⟩
      [Msg.system "s", Msg.user "hi"]).1 = false := by
  decide

/-! ### Tool failure handling (C5) -/

/-- C5: each tool call in a batch yields exactly one tool message for that
call's id (so the loop continues with the remaining requests and nothing
escapes it), and a failing call yields the structured error payload in place
of a success result. -/
theorem execBatch_error_handling (exec : ToolCall → Option String)
    (calls : List ToolCall) :
    (execBatch exec calls).length = calls.length ∧
    (∀ (i : Nat) (tc : ToolCall), calls[i]? = some tc →
      (execBatch exec calls)[i]? =
        some (Msg.tool tc.id
          (match exec tc with
           | some s => s
           | none => errorPayload))) ∧
    (∀ (i : Nat) (tc : ToolCall), calls[i]? = some tc → exec tc = none →
      (execBatch exec calls)[i]? = some (Msg.tool tc.id errorPayload)) := by
  refine ⟨by simp [execBatch], ?_, ?_⟩
  · intro i tc htc
    rw [execBatch, List.getElem?_map, htc]
    rfl
  · intro i tc htc hfail
    rw [execBatch, List.getElem?_map, htc]
    simp [toolResultMsg, hfail]

/-- C5, witness: the theorem applied to a concrete two-call batch whose
second call fails. -/
theorem execBatch_error_handling_witness :
    ([(⟨"t1", "get_time", ""⟩ : ToolCall), ⟨"t2", "get_weather", ""⟩][1]? =
        some ⟨"t2", "get_weather", ""⟩) ∧
      (execBatch (fun tc => if tc.id == "t1" then some "12:00" else none)
          [⟨"t1", "get_time", ""⟩, ⟨"t2", "get_weather", ""⟩])[1]? =
        some (Msg.tool "t2" errorPayload) :=
  ⟨rfl, (execBatch_error_handling (fun tc => if tc.id == "t1" then some "12:00" else none)
    [⟨"t1", "get_time", ""⟩, ⟨"t2", "get_weather", ""⟩]).2.2 1
    ⟨"t2", "get_weather", ""⟩ rfl rfl⟩

/-! ### Catastrophic reset (C6) -/

/-- The handler in `processNewSegments`'s outer `catch`: when the endpoint
error message indicates an invalid role sequence (the source tests
`error.message.includes("messages with role 'tool'")`, modelled as the
boolean flag), the log is reduced to `[messages[0], messages[length - 1]]`;
otherwise this handler leaves the log unchanged. -/
def resetOnValidationError (msgs : List Msg) (isRoleSequenceError : Bool) :
    List Msg :=
  if isRoleSequenceError then
    match msgs with
    | [] => []
    | m :: rest => [m, (m :: rest).getLast (List.cons_ne_nil m rest)]
  else msgs

/-- C6, amended: the handler keeps the **first** and the **last** entry of
the log.  At its only call site the log always ends with the user turn that
was just appended, so whenever the log ends with a `UserTurn` the result is
`[SystemTurn, most recent UserTurn]` exactly as the claim says; and an error
without the role-sequence indication leaves the log unchanged.  On a log not
ending with a `UserTurn` the handler keeps the last entry whatever it is
(see the counterexample). -/
theorem resetOnValidationError_amended (s c : String) (rest : List Msg)
    (h : (Msg.system s :: rest).getLast? = some (Msg.user c)) :
    resetOnValidationError (Msg.system s :: rest) true =
      [Msg.system s, Msg.user c] ∧
    (∀ msgs : List Msg, resetOnValidationError msgs false = msgs) := by
  constructor
  · have hlast : (Msg.system s :: rest).getLast (List.cons_ne_nil _ _) = Msg.user c := by
      have h2 := List.getLast?_eq_getLast (Msg.system s :: rest) (List.cons_ne_nil _ _)
      rw [h2] at h
      exact Option.some.inj h
    show [Msg.system s, (Msg.system s :: rest).getLast (List.cons_ne_nil _ _)] =
      [Msg.system s, Msg.user c]
    rw [hlast]
  · intro msgs
    cases msgs <;> rfl

/-- C6, witness: the amended theorem applied to a concrete log ending in a
user turn. -/
theorem resetOnValidationError_amended_witness :
    resetOnValidationError
        [Msg.system "s", Msg.assistant "a" [], Msg.user "u"] true =
      [Msg.system "s", Msg.user "u"] ∧
    (∀ msgs : List Msg, resetOnValidationError msgs false = msgs) :=
  resetOnValidationError_amended "s" "u" [Msg.assistant "a" [], Msg.user "u"] rfl

/-- C6, counterexample to the claim as stated: on a log whose last entry is
not a `UserTurn`, the handler keeps the last entry rather than the most
recent `UserTurn` — the result is `[SystemTurn, AssistantTurn]`, not
`[SystemTurn, mostRecentUserTurn]`. -/
theorem resetOnValidationError_counterexample :
    resetOnValidationError
        [Msg.system "s", Msg.user "u", Msg.assistant "a" []] true =
      [Msg.system "s", Msg.assistant "a" []] ∧
    resetOnValidationError
        [Msg.system "s", Msg.user "u", Msg.assistant "a" []] true ≠
      [Msg.system "s", Msg.user "u"] := by
  constructor <;> decide

/-! ### Transcript cursor -/

/-- One transcript segment (`{text, start, end, speaker}`).  Times are the
numeric `start`/`end` fields (named `end_` since `end` is reserved). -/
structure Segment where
  text : String
  start : Int
  end_ : Int
  speaker : Option String
deriving DecidableEq, Repr

/-- The check `seg.text.trim().length > 0`: the trimmed text is nonempty iff the text
contains a non-whitespace character. -/
def textNonempty (s : String) : Bool :=
  s.toList.any (fun ch => !ch.isWhitespace)

/-- The filter at the top of `processNewSegments`: segments strictly newer
than `lastProcessedTime` with nonempty trimmed text. -/
def newSegs (cursor : Int) (segments : List Segment) : List Segment :=
  segments.filter (fun seg => decide (cursor < seg.end_) && textNonempty seg.text)

/-- The value of `lastProcessedTime` after one poll: unchanged if no new segments,
otherwise `Math.max(...newSegments.map(s => s.end))`. -/
def advanceTime (cursor : Int) (segments : List Segment) : Int :=
  match newSegs cursor segments with
  | [] => cursor
  | s :: rest => (rest.map Segment.end_).foldl max s.end_

/-- The time-based cursor run over a polling history: the list of per-poll
emissions (`processNewSegments` of `part_002`). -/
def timeEmits (cursor : Int) : List (List Segment) → List (List Segment)
  | [] => []
  | p :: ps => newSegs cursor p :: timeEmits (advanceTime cursor p) ps

/-- The count-based cursor of the `client.ts` polling loop: if the poll has
more segments than `lastSegmentCount`, emit `segments.slice(lastSegmentCount)`
and set the count to `segments.length`; otherwise emit nothing. -/
def countEmits (lastSegmentCount : Nat) : List (List Segment) → List (List Segment)
  | [] => []
  | p :: ps =>
      if lastSegmentCount < p.length then
        p.drop lastSegmentCount :: countEmits p.length ps
      else
        [] :: countEmits lastSegmentCount ps

/-- A monotonically growing polling history: each poll appends a delta to the
previous poll's list (the claim's "new polls never shrink or reorder prior
segments"). -/
def growingPolls (acc : List Segment) : List (List Segment) → List (List Segment)
  | [] => []
  | d :: ds => (acc ++ d) :: growingPolls (acc ++ d) ds

lemma foldl_max_le_self : ∀ (l : List Int) (a : Int), a ≤ l.foldl max a
  | [], a => le_refl a
  | x :: l, a => le_trans (le_max_left a x) (foldl_max_le_self l (max a x))

lemma le_foldl_max : ∀ (l : List Int) (a x : Int), x ∈ l → x ≤ l.foldl max a
  | [], _, _, h => absurd h (List.not_mem_nil _)
  | y :: l, a, x, h => by
      rcases List.mem_cons.mp h with rfl | h2
      · exact le_trans (le_max_right a x) (foldl_max_le_self l _)
      · exact le_foldl_max l _ x h2

lemma foldl_max_mem : ∀ (l : List Int) (a : Int), l.foldl max a = a ∨ l.foldl max a ∈ l
  | [], a => Or.inl rfl
  | x :: l, a => by
      rcases foldl_max_mem l (max a x) with h | h
      · rcases max_cases a x with ⟨h2, -⟩ | ⟨h2, -⟩
        · left; rw [List.foldl_cons, h, h2]
        · right; rw [List.foldl_cons, h, h2]; exact List.mem_cons_self x l
      · right; exact List.mem_cons_of_mem x h

lemma mem_newSegs (cursor : Int) (segments : List Segment) (seg : Segment) :
    seg ∈ newSegs cursor segments ↔
      seg ∈ segments ∧ cursor < seg.end_ ∧ textNonempty seg.text = true := by
  simp [newSegs, List.mem_filter, and_assoc]

lemma newSegs_end_gt (cursor : Int) (segments : List Segment) (seg : Segment)
    (h : seg ∈ newSegs cursor segments) : cursor < seg.end_ :=
  ((mem_newSegs cursor segments seg).mp h).2.1

lemma advanceTime_ge (cursor : Int) (segments : List Segment) (seg : Segment)
    (h : seg ∈ newSegs cursor segments) : seg.end_ ≤ advanceTime cursor segments := by
  rw [advanceTime]
  rcases hns : newSegs cursor segments with - | ⟨s, rest⟩
  · rw [hns] at h; exact absurd h (List.not_mem_nil seg)
  · rw [hns] at h
    rcases List.mem_cons.mp h with rfl | h2
    · exact foldl_max_le_self _ _
    · exact le_foldl_max _ _ _ (List.mem_map_of_mem Segment.end_ h2)

lemma cursor_le_advanceTime (cursor : Int) (segments : List Segment) :
    cursor ≤ advanceTime cursor segments := by
  rcases hns : newSegs cursor segments with - | ⟨s, rest⟩
  · rw [advanceTime, hns]
  · have hs : s ∈ newSegs cursor segments := by rw [hns]; exact List.mem_cons_self s rest
    exact le_of_lt (lt_of_lt_of_le (newSegs_end_gt _ _ _ hs) (advanceTime_ge _ _ _ hs))

/-- Every segment emitted at any poll of a run has end time strictly above
the cursor the run started from. -/
lemma timeEmits_end_gt :
    ∀ (polls : List (List Segment)) (cursor : Int) (k : Nat) (e : List Segment)
      (s : Segment), (timeEmits cursor polls)[k]? = some e → s ∈ e →
      cursor < s.end_
  | [], _, k, _, _, h, _ => by simp [timeEmits] at h
  | p :: ps, cursor, 0, e, s, h, hs => by
      rw [timeEmits, List.getElem?_cons_zero] at h
      cases Option.some.inj h
      exact newSegs_end_gt cursor p s hs
  | p :: ps, cursor, k + 1, e, s, h, hs => by
      rw [timeEmits, List.getElem?_cons_succ] at h
      exact lt_of_le_of_lt (cursor_le_advanceTime cursor p)
        (timeEmits_end_gt ps (advanceTime cursor p) k e s h hs)

/-- A segment emitted at one poll is never emitted at a strictly later poll:
once its end time is at or below the cursor it stays there. -/
lemma timeEmits_once_aux :
    ∀ (polls : List (List Segment)) (cursor : Int) (k k2 : Nat)
      (e e2 : List Segment) (s : Segment),
      (timeEmits cursor polls)[k]? = some e →
      (timeEmits cursor polls)[k2]? = some e2 →
      s ∈ e → s ∈ e2 → k < k2 → False
  | [], _, _, _, _, _, _, h, _, _, _, _ => by simp [timeEmits] at h
  | p :: ps, cursor, 0, k2, e, e2, s, h, h2, hs, hs2, hlt => by
      obtain ⟨j, rfl⟩ : ∃ j, k2 = j + 1 := ⟨k2 - 1, by omega⟩
      rw [timeEmits, List.getElem?_cons_zero] at h
      cases Option.some.inj h
      rw [timeEmits, List.getElem?_cons_succ] at h2
      have hgt : advanceTime cursor p < s.end_ :=
        timeEmits_end_gt ps (advanceTime cursor p) j e2 s h2 hs2
      have hle : s.end_ ≤ advanceTime cursor p := advanceTime_ge cursor p s hs
      omega
  | p :: ps, cursor, k + 1, k2, e, e2, s, h, h2, hs, hs2, hlt => by
      obtain ⟨j, rfl⟩ : ∃ j, k2 = j + 1 := ⟨k2 - 1, by omega⟩
      rw [timeEmits, List.getElem?_cons_succ] at h h2
      exact timeEmits_once_aux ps (advanceTime cursor p) k j e e2 s h h2 hs hs2
        (by omega)

/-- The emissions of the count-based cursor over a monotonically growing
history concatenate to exactly the deltas, i.e. to the final segment list. -/
lemma countEmits_growing :
    ∀ (ds : List (List Segment)) (acc : List Segment),
      (countEmits acc.length (growingPolls acc ds)).flatten = ds.flatten
  | [], _ => rfl
  | d :: ds, acc => by
      rw [growingPolls, countEmits]
      by_cases hd : d = []
      · subst hd
        rw [if_neg (by simp)]
        simpa using countEmits_growing ds acc
      · rw [if_pos (by simpa using List.length_pos_of_ne_nil hd)]
        rw [List.drop_left, List.flatten_cons, List.flatten_cons,
          countEmits_growing ds (acc ++ d)]

/-- C8: per poll of the time-based cursor, the emitted set is exactly the
segments with end time strictly above the cursor and nonempty trimmed text;
with no qualifying segment the poll is a no-op on the cursor (and emits the
empty list); with at least one, the new cursor is the maximum end time over
the emitted set (it is attained by an emitted segment and bounds them all). -/
theorem advanceTime_spec (cursor : Int) (segments : List Segment) :
    (∀ seg : Segment, seg ∈ newSegs cursor segments ↔
        seg ∈ segments ∧ cursor < seg.end_ ∧ textNonempty seg.text = true) ∧
    (newSegs cursor segments = [] → advanceTime cursor segments = cursor) ∧
    (newSegs cursor segments ≠ [] →
      (∃ seg ∈ newSegs cursor segments, advanceTime cursor segments = seg.end_) ∧
      ∀ seg ∈ newSegs cursor segments, seg.end_ ≤ advanceTime cursor segments) := by
  refine ⟨mem_newSegs cursor segments, fun h => by rw [advanceTime, h], fun h => ⟨?_, ?_⟩⟩
  · rw [advanceTime]
    rcases hns : newSegs cursor segments with - | ⟨s, rest⟩
    · exact absurd hns h
    · rcases foldl_max_mem (rest.map Segment.end_) s.end_ with hm | hm
      · exact ⟨s, List.mem_cons_self s rest, hm⟩
      · obtain ⟨seg, hseg, hend⟩ := List.mem_map.mp hm
        exact ⟨seg, List.mem_cons_of_mem s hseg, hend.symm⟩
  · exact fun seg hseg => advanceTime_ge cursor segments seg hseg

/-- C8, witness: the characterization applied to a concrete poll containing
a qualifying segment, a stale segment and a whitespace-only segment. -/
theorem advanceTime_spec_witness :
    newSegs 3 [⟨"hi", 0, 5, some "Alice"⟩, ⟨"old", 0, 2, none⟩, ⟨" ", 4, 6, none⟩] ≠ [] ∧
      ((∃ seg ∈ newSegs 3
          [⟨"hi", 0, 5, some "Alice"⟩, ⟨"old", 0, 2, none⟩, ⟨" ", 4, 6, none⟩],
          advanceTime 3
            [⟨"hi", 0, 5, some "Alice"⟩, ⟨"old", 0, 2, none⟩, ⟨" ", 4, 6, none⟩] =
            seg.end_) ∧
        ∀ seg ∈ newSegs 3
          [⟨"hi", 0, 5, some "Alice"⟩, ⟨"old", 0, 2, none⟩, ⟨" ", 4, 6, none⟩],
          seg.end_ ≤ advanceTime 3
            [⟨"hi", 0, 5, some "Alice"⟩, ⟨"old", 0, 2, none⟩, ⟨" ", 4, 6, none⟩]) :=
  ⟨by decide,
    (advanceTime_spec 3
      [⟨"hi", 0, 5, some "Alice"⟩, ⟨"old", 0, 2, none⟩, ⟨" ", 4, 6, none⟩]).2.2
      (by decide)⟩

/-- C7, amended: the time-based cursor of `part_002` emits any segment in at
most one poll (never reprocessed once its end time is at or below the
cursor), and the count-based cursor of `client.ts` emits, over any
monotonically growing history, every segment exactly once (the concatenated
emissions are exactly the full final list, in order).  The time-based cursor
does **not** emit every segment at least once (see the counterexample). -/
theorem transcriptCursor_amended :
    (∀ (polls : List (List Segment)) (cursor : Int) (k k2 : Nat)
        (e e2 : List Segment) (s : Segment),
        (timeEmits cursor polls)[k]? = some e →
        (timeEmits cursor polls)[k2]? = some e2 →
        s ∈ e → s ∈ e2 → k = k2) ∧
    (∀ ds : List (List Segment),
        (countEmits 0 (growingPolls [] ds)).flatten = ds.flatten) := by
  constructor
  · intro polls cursor k k2 e e2 s h h2 hs hs2
    rcases lt_trichotomy k k2 with hlt | heq | hgt
    · exact absurd (timeEmits_once_aux polls cursor k k2 e e2 s h h2 hs hs2 hlt) id
    · exact heq
    · exact absurd (timeEmits_once_aux polls cursor k2 k e2 e s h2 h hs2 hs hgt) id
  · exact fun ds => countEmits_growing ds []

/-- C7, witness: the amended theorem applied to a concrete run — the
segment emitted at poll 0 is only found at poll 0, and a concrete growing
history is emitted exactly once by the count-based cursor. -/
theorem transcriptCursor_amended_witness :
    (0 : Nat) = 0 ∧
      (countEmits 0 (growingPolls []
        [[⟨"hi", 0, 5, some "Alice"⟩], [⟨"yo", 5, 8, none⟩]])).flatten =
        [⟨"hi", 0, 5, some "Alice"⟩, ⟨"yo", 5, 8, none⟩] :=
  ⟨transcriptCursor_amended.1 [[⟨"hi", 0, 5, some "Alice"⟩]] 0 0 0
      [⟨"hi", 0, 5, some "Alice"⟩] [⟨"hi", 0, 5, some "Alice"⟩]
      ⟨"hi", 0, 5, some "Alice"⟩ (by decide) (by decide) (by decide) (by decide),
    transcriptCursor_amended.2 [[⟨"hi", 0, 5, some "Alice"⟩], [⟨"yo", 5, 8, none⟩]]⟩

/-- C7, counterexample to the claim as stated: a monotonically growing
history (second poll appends a segment whose end time equals the first
poll's maximum) in which the appended segment is never emitted by the
time-based cursor — "each segment exactly once" fails. -/
theorem timeEmits_counterexample :
    timeEmits 0 (growingPolls [] [[⟨"a", 0, 5, none⟩], [⟨"b", 4, 5, none⟩]]) =
      [[⟨"a", 0, 5, none⟩], []] ∧
    ∀ e ∈ timeEmits 0 (growingPolls [] [[⟨"a", 0, 5, none⟩], [⟨"b", 4, 5, none⟩]]),
      (⟨"b", 4, 5, none⟩ : Segment) ∉ e := by
  constructor <;> decide

/-! ### Debounce (C9) -/

/-- Discrete event-loop model of the debounce in the polling callback of
`client.ts` (and `part_000`): on each poll that finds new segments, the
pending timeout (if any) is cleared and a new one is set to fire `D` later.
Given the strictly ordered arrival times of these polls, a timeout set at
time `t` fires at `t + D` unless the next arrival comes strictly before
`t + D` and clears it.  `debounceFires` lists the firing times. -/
def debounceFires (D : Int) : List Int → List Int
  | [] => []
  | [t] => [t + D]
  | t :: t2 :: ts =>
      if t2 < t + D then debounceFires D (t2 :: ts)
      else (t + D) :: debounceFires D (t2 :: ts)

/-- C9: in a rapid burst — consecutive arrivals spaced strictly less than
`D` apart — every intermediate timer is cancelled and exactly one model
cycle results, triggered by the last arrival's timer at `lastArrival + D`. -/
theorem debounceFires_burst (D : Int) :
    ∀ (t : Int) (ts : List Int), List.Chain (fun a b => b < a + D) t ts →
      debounceFires D (t :: ts) = [(t :: ts).getLast (List.cons_ne_nil t ts) + D]
  | t, [], _ => rfl
  | t, t2 :: ts, h => by
      rcases List.chain_cons.mp h with ⟨hlt, hchain⟩
      rw [debounceFires, if_pos hlt, debounceFires_burst D t2 ts hchain,
        List.getLast_cons (List.cons_ne_nil t2 ts)]

/-- C9, witness: a three-arrival burst with `D = 1000` produces exactly one
fire, from the last arrival. -/
theorem debounceFires_burst_witness :
    debounceFires 1000 [0, 500, 900] = [1900] :=
  debounceFires_burst 1000 0 [500, 900]
    (List.Chain.cons (by omega) (List.Chain.cons (by omega) List.Chain.nil))

end Joinly
